import Mathlib

/-!
Shallow embedding of `flag_embedding/baai_general_embedding/flag_models.py`
(class `FlagModel`).

Modelling conventions:
* Tensors of floats become nested lists over `ℝ` (a hidden-state batch is
  `List (List (List ℝ))`: batch × tokens × dim; an attention mask is
  `List (List Nat)` of 0/1 flags).
* The tokenizer and the transformer model are external collaborators; they are
  fields of a `Collab` structure together with the shape laws the wrapper
  relies on (one mask row per sentence, one hidden-state matrix per mask row).
* Python code that can raise becomes `Option`-valued: `none` models an
  uncaught exception (`ValueError` from `np.concatenate` on an empty list,
  `IndexError` from `corpus[0]`, `KeyError` from `doc['text']`,
  `AttributeError` from calling `.get` on a `str` or from reading the unset
  attribute `self.batch_size`, and the `None` falling out of `pooling` for an
  unsupported method).
-/

namespace FlagEmbedding

noncomputable section

/-- Python `str.strip()` whitespace set (characters for which `str.isspace()`
holds in the ASCII range). -/
def isPySpace (c : Char) : Bool :=
  c = ' ' || c = '\t' || c = '\n' || c = '\x0d' || c = '\x0b' || c = '\x0c'

/-- Python `s.strip()`: remove leading and trailing whitespace. -/
def pyStrip (s : String) : String :=
  String.mk (((s.data.dropWhile isPySpace).reverse.dropWhile isPySpace).reverse)

/-- An element of the `corpus` argument of `encode_corpus`: either a plain
Python `str` or a `dict` with optional `title` and (supposedly) `text` keys.
`text := none` models a dict lacking the `'text'` key. -/
inductive CorpusItem where
  | str (s : String)
  | dict (title : Option String) (text : Option String)
deriving DecidableEq

/-- Line 54 of `flag_models.py`, per document:
`'{} {}'.format(doc.get('title', ''), doc['text']).strip()`.
`none` models the exceptions: `AttributeError` when `doc` is a plain string
(`str` has no `.get`), `KeyError` when the `'text'` key is missing. -/
def formatDoc : CorpusItem → Option String
  | CorpusItem.str _ => none
  | CorpusItem.dict title text =>
      text.map (fun t => pyStrip ((title.getD "") ++ " " ++ t))

/-- Lines 53–56 of `flag_models.py`: the computation of `input_texts` in
`encode_corpus`. The branch is chosen by `isinstance(corpus[0], dict)`;
`corpus[0]` on an empty list raises `IndexError` (`none`). In the dict branch
every element goes through `formatDoc`; in the other branch the list is passed
through unchanged. -/
def corpusInputs : List CorpusItem → Option (List CorpusItem)
  | [] => none
  | CorpusItem.dict title text :: rest =>
      ((CorpusItem.dict title text :: rest).mapM formatDoc).map
        (fun texts => texts.map CorpusItem.str)
  | CorpusItem.str s :: rest => some (CorpusItem.str s :: rest)

/-- The underlying tokenizer expects plain strings; a `dict` reaching it (only
possible through the pass-through branch of `encode_corpus`) is rejected by
the collaborator. -/
def itemText : CorpusItem → Option String
  | CorpusItem.str s => some s
  | CorpusItem.dict _ _ => none

/-! ### Pooling (lines 86–94) -/

/-- `last_hidden_state * attention_mask.unsqueeze(-1).float()` for one token
position: the token's hidden-state vector scaled by its 0/1 mask flag. -/
def maskScale (h : List ℝ) (mt : Nat) : List ℝ :=
  h.map (fun x => x * (mt : ℝ))

/-- Pointwise addition of two dim-vectors (used for `torch.sum(·, dim=1)`). -/
def vecAdd (a b : List ℝ) : List ℝ :=
  List.zipWith (fun x y => x + y) a b

/-- `torch.sum(·, dim=1)`: sum a list of token vectors into one dim-vector
(`dim` is the embedding dimensionality carried by the tensor shape). -/
def vecSum (dim : Nat) (vs : List (List ℝ)) : List ℝ :=
  vs.foldl vecAdd (List.replicate dim 0)

/-- `attention_mask.sum(dim=1, keepdim=True).float()` for one item: the number
of unmasked tokens, as a real. -/
def maskSum (m : List Nat) : ℝ :=
  ((m.sum : Nat) : ℝ)

/-- Lines 92–94 for a single batch item: masked mean pooling.
`s = torch.sum(last_hidden_state * mask, dim=1)`, `d = mask.sum(dim=1)`,
result `s / d` per dimension. -/
def meanPoolItem (dim : Nat) (h : List (List ℝ)) (m : List Nat) : List ℝ :=
  (vecSum dim (List.zipWith maskScale h m)).map (fun x => x / maskSum m)

/-- `FlagModel.pooling` (lines 86–94). `'cls'` takes
`last_hidden_state[:, 0]`; `'mean'` is masked mean pooling; any other value of
`pooling_method` falls off the end of the `if`/`elif` chain and the function
returns Python `None`, modelled as `none`. -/
def pooling (method : String) (dim : Nat) (hidden : List (List (List ℝ)))
    (mask : List (List Nat)) : Option (List (List ℝ)) :=
  if method = "cls" then
    some (hidden.map (fun h => h.headD []))
  else if method = "mean" then
    some (List.zipWith (fun h m => meanPoolItem dim h m) hidden mask)
  else
    none

/-! ### Normalization (line 79) -/

/-- Sum of squares of a vector's entries. -/
def sumSq (v : List ℝ) : ℝ :=
  (v.map (fun x => x * x)).sum

/-- Euclidean (L2) norm of a vector. -/
def euclidNorm (v : List ℝ) : ℝ :=
  Real.sqrt (sumSq v)

/-- `torch.nn.functional.normalize(·, dim=-1)` on one row: divide by the
Euclidean norm. (In Lean division by zero yields zero, so the zero vector maps
to itself, matching the degenerate behaviour noted by the spec.) -/
def vecNormalize (v : List ℝ) : List ℝ :=
  v.map (fun x => x / euclidNorm v)

/-! ### The embedder and its collaborators -/

/-- The tokenizer's output for a batch: padded token ids and the 0/1 attention
mask, one row per sentence of the batch. -/
structure Tokenized where
  ids : List (List Nat)
  mask : List (List Nat)

/-- The external collaborators of `FlagModel` (spec §6): a tokenizer mapping a
batch of strings (with a maximum length) to padded token-id and mask tensors,
and a model mapping the tokenized batch to per-token hidden states of
dimensionality `dim`. The two laws are the collaborator contract the wrapper
relies on: one mask row per input sentence, and one hidden-state matrix per
mask row. -/
structure Collab where
  dim : Nat
  tok : List String → Nat → Tokenized
  fwd : Tokenized → List (List (List ℝ))
  tok_len : ∀ ss ml, ((tok ss ml).mask).length = ss.length
  fwd_len : ∀ t, (fwd t).length = t.mask.length

/-- The configuration a constructed `FlagModel` carries (spec §3): pooling
method, normalize flag, optional query instruction, and the detected device
count. -/
structure FlagConfig where
  pooling_method : String
  normalize_embeddings : Bool
  query_instruction_for_retrieval : Option String
  num_gpus : Nat
deriving DecidableEq

/-- `FlagModel.__init__` (lines 9–29). `modelResolvable = false` models
`from_pretrained` raising on an unresolvable identifier. When
`num_gpus > 1`, line 29 executes `self.batch_size = self.batch_size *
self.num_gpus`; no path of `__init__` ever assigned `self.batch_size` before
this read, so the attribute access raises `AttributeError` and construction
fails (`none`). -/
def initFlagModel (modelResolvable : Bool) (pooling_method : String)
    (normalize_embeddings : Bool) (query_instruction : Option String)
    (num_gpus : Nat) : Option FlagConfig :=
  if modelResolvable = false then none
  else if num_gpus > 1 then none
  else
    some { pooling_method := pooling_method
           normalize_embeddings := normalize_embeddings
           query_instruction_for_retrieval := query_instruction
           num_gpus := num_gpus }

/-- Lines 62–63 of `encode`: `if self.num_gpus > 0: batch_size = batch_size *
self.num_gpus`. -/
def effectiveBatch (cfg : FlagConfig) (bs : Nat) : Nat :=
  if 0 < cfg.num_gpus then bs * cfg.num_gpus else bs

/-- The Python slicing loop `for start_index in range(0, len(sentences),
batch_size): sentences[start_index : start_index + batch_size]`: contiguous
chunks in input order. (Only called with a positive chunk size; `range` with
step 0 raises, which `encode` guards separately.) -/
def chunkList (n : Nat) : List α → List (List α)
  | [] => []
  | x :: xs => (x :: xs.take (n - 1)) :: chunkList n (xs.drop (n - 1))
termination_by l => l.length
decreasing_by simp; omega

/-- The body of `encode`'s batch loop (lines 68–81) for one chunk: tokenize,
forward pass, pooling, optional normalization. `none` propagates the
`AttributeError` that calling `.cpu()` on pooling's `None` result raises. -/
def processBatch (cfg : FlagConfig) (co : Collab) (ml : Nat)
    (batch : List String) : Option (List (List ℝ)) :=
  let t := co.tok batch ml
  let hidden := co.fwd t
  (pooling cfg.pooling_method co.dim hidden t.mask).map
    (fun pooled =>
      if cfg.normalize_embeddings then pooled.map vecNormalize else pooled)

/-- `FlagModel.encode` (lines 60–83). Scales the batch size by the device
count, partitions the input into contiguous chunks, processes each chunk, and
concatenates the per-chunk rows (`np.concatenate(all_embeddings, axis=0)`,
which raises `ValueError` when the accumulator list is empty; `range` with
step 0 also raises). -/
def encode (cfg : FlagConfig) (co : Collab) (sentences : List String)
    (bs ml : Nat) : Option (List (List ℝ)) :=
  if effectiveBatch cfg bs = 0 then none
  else
    match (chunkList (effectiveBatch cfg bs) sentences).mapM
        (processBatch cfg co ml) with
    | none => none
    | some outs => if outs.isEmpty then none else some outs.flatten

/-- `FlagModel.encode_queries` (lines 32–43): when an instruction is
configured, prepend it to every query (`'{}{}'.format(instruction, q)`);
delegate to `encode`. -/
def encode_queries (cfg : FlagConfig) (co : Collab) (queries : List String)
    (bs ml : Nat) : Option (List (List ℝ)) :=
  let input_texts :=
    match cfg.query_instruction_for_retrieval with
    | some ins => queries.map (fun q => ins ++ q)
    | none => queries
  encode cfg co input_texts bs ml

/-- `FlagModel.encode_corpus` (lines 46–57): build `input_texts` per
`corpusInputs`, then delegate to `encode` (the tokenizer rejecting any
non-string item that was passed through). -/
def encode_corpus (cfg : FlagConfig) (co : Collab) (corpus : List CorpusItem)
    (bs ml : Nat) : Option (List (List ℝ)) :=
  match corpusInputs corpus with
  | none => none
  | some items =>
    match items.mapM itemText with
    | none => none
    | some texts => encode cfg co texts bs ml

end

/-! ### Helper lemmas -/

theorem optionMapM_cons (f : α → Option β) (a : α) (l : List α) :
    (a :: l).mapM f
      = (f a).bind (fun x => (l.mapM f).bind (fun xs => some (x :: xs))) := by
  rw [← List.mapM'_eq_mapM, ← List.mapM'_eq_mapM]
  rfl

theorem optionMapM_nil (f : α → Option β) : ([] : List α).mapM f = some [] :=
  rfl

theorem optionMapM_length (f : α → Option β) :
    ∀ (l : List α) (out : List β), l.mapM f = some out → out.length = l.length := by
  intro l
  induction l with
  | nil => intro out h; rw [optionMapM_nil] at h; cases h; rfl
  | cons a t ih =>
    intro out h
    rw [optionMapM_cons] at h
    cases hfa : f a with
    | none => rw [hfa] at h; cases h
    | some x =>
      rw [hfa] at h
      cases hmt : t.mapM f with
      | none => rw [hmt] at h; cases h
      | some xs =>
        rw [hmt] at h
        cases h
        simpa using ih xs hmt

theorem optionMapM_mem (f : α → Option β) :
    ∀ (l : List α) (out : List β), l.mapM f = some out →
      ∀ o ∈ out, ∃ c ∈ l, f c = some o := by
  intro l
  induction l with
  | nil => intro out h; rw [optionMapM_nil] at h; cases h; intro o ho; cases ho
  | cons a t ih =>
    intro out h
    rw [optionMapM_cons] at h
    cases hfa : f a with
    | none => rw [hfa] at h; cases h
    | some x =>
      rw [hfa] at h
      cases hmt : t.mapM f with
      | none => rw [hmt] at h; cases h
      | some xs =>
        rw [hmt] at h
        cases h
        intro o ho
        rcases List.mem_cons.mp ho with h1 | h2
        · exact ⟨a, List.mem_cons_self a t, by rw [hfa, h1]⟩
        · rcases ih xs hmt o h2 with ⟨c, hc, hfc⟩
          exact ⟨c, List.mem_cons_of_mem a hc, hfc⟩

theorem optionMapM_none_of_mem (f : α → Option β) :
    ∀ (l : List α), (∃ x ∈ l, f x = none) → l.mapM f = none := by
  intro l
  induction l with
  | nil => rintro ⟨x, hx, -⟩; cases hx
  | cons a t ih =>
    rintro ⟨x, hx, hfx⟩
    rw [optionMapM_cons]
    rcases List.mem_cons.mp hx with h1 | h2
    · rw [← h1, hfx]; rfl
    · cases hfa : f a with
      | none => rfl
      | some y => rw [ih ⟨x, h2, hfx⟩]; rfl

theorem optionMapM_some_of_forall (f : α → Option β) :
    ∀ l : List α, (∀ x ∈ l, ∃ y, f x = some y) → ∃ out, l.mapM f = some out := by
  intro l
  induction l with
  | nil => intro _; exact ⟨[], rfl⟩
  | cons a t ih =>
    intro h
    rcases h a (List.mem_cons_self a t) with ⟨y, hy⟩
    rcases ih (fun x hx => h x (List.mem_cons_of_mem a hx)) with ⟨out, hout⟩
    exact ⟨y :: out, by rw [optionMapM_cons, hy, hout]; rfl⟩

theorem itemText_roundtrip :
    ∀ ts : List String, (ts.map CorpusItem.str).mapM itemText = some ts := by
  intro ts
  induction ts with
  | nil => rfl
  | cons a t ih =>
    rw [List.map_cons, optionMapM_cons, ih]
    rfl

theorem chunkList_flatten (n : Nat) :
    ∀ l : List α, (chunkList n l).flatten = l
  | [] => by rw [chunkList]; rfl
  | x :: xs => by
    rw [chunkList]
    rw [List.flatten_cons]
    rw [chunkList_flatten n (xs.drop (n - 1))]
    rw [List.cons_append, List.take_append_drop]
termination_by l => l.length
decreasing_by simp; omega

theorem chunkList_ne_nil (n : Nat) (x : α) (xs : List α) :
    chunkList n (x :: xs) ≠ [] := by
  rw [chunkList]
  exact List.cons_ne_nil _ _

theorem encode_nil (cfg : FlagConfig) (co : Collab) (bs ml : Nat) :
    encode cfg co [] bs ml = none := by
  unfold encode
  by_cases h : effectiveBatch cfg bs = 0
  · rw [if_pos h]
  · have hc : chunkList (effectiveBatch cfg bs) ([] : List String) = [] := by
      rw [chunkList]
    rw [if_neg h, hc, optionMapM_nil]
    rfl

theorem mapM_formatDoc_dicts :
    ∀ docs : List (Option String × String),
      (docs.map (fun d => CorpusItem.dict d.1 (some d.2))).mapM formatDoc
        = some (docs.map (fun d => pyStrip ((d.1.getD "") ++ " " ++ d.2))) := by
  intro docs
  induction docs with
  | nil => rfl
  | cons d drest ih =>
    rw [List.map_cons, optionMapM_cons, ih]
    rfl

theorem corpusInputs_dicts (d : Option String × String)
    (drest : List (Option String × String)) :
    corpusInputs (((d :: drest)).map (fun d => CorpusItem.dict d.1 (some d.2)))
      = some (((d :: drest)).map
          (fun d => pyStrip ((d.1.getD "") ++ " " ++ d.2))
          |>.map CorpusItem.str) := by
  have hm := mapM_formatDoc_dicts (d :: drest)
  simp only [List.map_cons] at hm ⊢
  simp only [corpusInputs]
  rw [hm]
  rfl

theorem vecAdd_replicate_zero_left :
    ∀ v : List ℝ, vecAdd (List.replicate v.length 0) v = v := by
  intro v
  induction v with
  | nil => rfl
  | cons x t ih =>
    simp only [List.length_cons, List.replicate_succ, vecAdd, List.zipWith_cons_cons,
      zero_add]
    exact congrArg (x :: ·) ih

theorem vecAdd_replicate_zero_right :
    ∀ v : List ℝ, vecAdd v (List.replicate v.length 0) = v := by
  intro v
  induction v with
  | nil => rfl
  | cons x t ih =>
    simp only [List.length_cons, List.replicate_succ, vecAdd, List.zipWith_cons_cons,
      add_zero]
    exact congrArg (x :: ·) ih

theorem vecAdd_length (a b : List ℝ) : (vecAdd a b).length = min a.length b.length :=
  List.length_zipWith _ _ _

theorem foldl_vecAdd_zeros (dim : Nat) :
    ∀ ws : List (List ℝ), (∀ w ∈ ws, w = List.replicate dim 0) →
      ∀ a : List ℝ, a.length = dim → ws.foldl vecAdd a = a := by
  intro ws
  induction ws with
  | nil => intro _ a _; rfl
  | cons w t ih =>
    intro h a ha
    have hw : w = List.replicate dim 0 := h w (List.mem_cons_self w t)
    have haw : vecAdd a w = a := by
      rw [hw, ← ha]
      exact vecAdd_replicate_zero_right a
    simp only [List.foldl_cons, haw]
    exact ih (fun x hx => h x (List.mem_cons_of_mem w hx)) a ha

theorem maskScale_one (h : List ℝ) : maskScale h 1 = h := by
  unfold maskScale
  simp

theorem maskScale_zero (v : List ℝ) : maskScale v 0 = List.replicate v.length 0 := by
  induction v with
  | nil => rfl
  | cons x t ih =>
    show (x * ((0 : Nat) : ℝ)) :: maskScale t 0 = 0 :: List.replicate t.length 0
    rw [ih, Nat.cast_zero, mul_zero]

theorem zipWith_maskScale_zeros (k : Nat) :
    ∀ rest : List (List ℝ),
      ∀ w ∈ List.zipWith maskScale rest (List.replicate k 0),
        ∃ v ∈ rest, w = maskScale v 0 := by
  induction k with
  | zero => intro rest w hw; simp at hw
  | succ n ih =>
    intro rest w hw
    cases rest with
    | nil => simp at hw
    | cons v t =>
      rw [List.replicate_succ, List.zipWith_cons_cons] at hw
      rcases List.mem_cons.mp hw with h1 | h2
      · exact ⟨v, List.mem_cons_self v t, h1⟩
      · rcases ih t w h2 with ⟨v2, hv2, hw2⟩
        exact ⟨v2, List.mem_cons_of_mem v hv2, hw2⟩

theorem sumSq_nonneg (v : List ℝ) : 0 ≤ sumSq v := by
  unfold sumSq
  induction v with
  | nil => simp
  | cons x t ih =>
    simp only [List.map_cons, List.sum_cons]
    exact add_nonneg (mul_self_nonneg x) ih

theorem sumSq_map_div (v : List ℝ) (c : ℝ) :
    sumSq (v.map (fun x => x / c)) = sumSq v / (c * c) := by
  unfold sumSq
  induction v with
  | nil => simp
  | cons x t ih =>
    simp only [List.map_cons, List.sum_cons, List.map_map]
    rw [show ((fun x => x * x) ∘ fun x => x / c) = fun x => (x / c) * (x / c) from rfl]
    rw [show List.map (fun x => (x / c) * (x / c)) t
        = List.map (fun x => x * x) (List.map (fun x => x / c) t) by
      rw [List.map_map]; rfl]
    rw [ih, div_mul_div_comm, div_add_div_same]

theorem vecNormalize_unit (v : List ℝ) :
    (∀ x ∈ vecNormalize v, x = 0) ∨ euclidNorm (vecNormalize v) = 1 := by
  by_cases h : sumSq v = 0
  · left
    intro x hx
    rcases List.mem_map.mp hx with ⟨y, _, rfl⟩
    rw [euclidNorm, h, Real.sqrt_zero, div_zero]
  · right
    rw [euclidNorm, vecNormalize, sumSq_map_div]
    rw [show euclidNorm v * euclidNorm v = sumSq v from Real.mul_self_sqrt (sumSq_nonneg v)]
    rw [div_self h, Real.sqrt_one]

/-! ### Concrete instances used by witnesses -/

/-- A concrete collaborator: a tokenizer producing one token per sentence and
a model of dimensionality 1 with constant hidden state `2`. -/
def collabW : Collab where
  dim := 1
  tok := fun ss _ => { ids := ss.map (fun _ => [1]), mask := ss.map (fun _ => [1]) }
  fwd := fun t => t.mask.map (fun _ => [[2]])
  tok_len := by intro ss ml; simp
  fwd_len := by intro t; simp

/-- A concrete configuration: CLS pooling, no normalization, no instruction,
no GPU. -/
def cfgW : FlagConfig :=
  { pooling_method := "cls"
    normalize_embeddings := false
    query_instruction_for_retrieval := none
    num_gpus := 0 }

/-- As `cfgW` but with the query instruction `"q: "` configured. -/
def cfgQ : FlagConfig :=
  { pooling_method := "cls"
    normalize_embeddings := false
    query_instruction_for_retrieval := some "q: "
    num_gpus := 0 }

/-! ### Claims -/

theorem pooling_some_length (method : String) (dim : Nat)
    (hidden : List (List (List ℝ))) (mask : List (List Nat))
    (hlen : hidden.length = mask.length)
    (hpm : method = "cls" ∨ method = "mean") :
    ∃ pooled, pooling method dim hidden mask = some pooled ∧
      pooled.length = hidden.length := by
  rcases hpm with h | h <;> subst h
  · exact ⟨_, rfl, List.length_map _ _⟩
  · refine ⟨_, rfl, ?_⟩
    rw [List.length_zipWith, hlen, Nat.min_self]

theorem processBatch_some (cfg : FlagConfig) (co : Collab) (ml : Nat)
    (batch : List String)
    (hpm : cfg.pooling_method = "cls" ∨ cfg.pooling_method = "mean") :
    ∃ o, processBatch cfg co ml batch = some o ∧ o.length = batch.length := by
  have hlen : (co.fwd (co.tok batch ml)).length = (co.tok batch ml).mask.length :=
    co.fwd_len _
  rcases pooling_some_length cfg.pooling_method co.dim _ _ hlen hpm with
    ⟨pooled, hp, hl⟩
  have hbatch : pooled.length = batch.length := by
    rw [hl, co.fwd_len, co.tok_len]
  have hpb : processBatch cfg co ml batch
      = Option.map (fun pooled => if cfg.normalize_embeddings = true
          then List.map vecNormalize pooled else pooled)
        (pooling cfg.pooling_method co.dim (co.fwd (co.tok batch ml))
          (co.tok batch ml).mask) := rfl
  cases hn : cfg.normalize_embeddings with
  | true =>
    refine ⟨pooled.map vecNormalize, ?_, ?_⟩
    · rw [hpb, hp, hn]
      rfl
    · rw [List.length_map, hbatch]
  | false =>
    refine ⟨pooled, ?_, hbatch⟩
    rw [hpb, hp, hn]
    rfl

theorem optionMapM_lengths (f : List α → Option (List β)) :
    ∀ chunks : List (List α),
      (∀ c ∈ chunks, ∃ o, f c = some o ∧ o.length = c.length) →
      ∃ outs, chunks.mapM f = some outs ∧ outs.length = chunks.length ∧
        outs.flatten.length = chunks.flatten.length := by
  intro chunks
  induction chunks with
  | nil => intro _; exact ⟨[], rfl, rfl, rfl⟩
  | cons c t ih =>
    intro h
    rcases h c (List.mem_cons_self c t) with ⟨o, ho, hol⟩
    rcases ih (fun x hx => h x (List.mem_cons_of_mem c hx)) with
      ⟨outs, houts, hl1, hl2⟩
    refine ⟨o :: outs, ?_, ?_, ?_⟩
    · rw [optionMapM_cons, ho, houts]
      rfl
    · simp [hl1]
    · simp only [List.flatten_cons, List.length_append, hol, hl2]

/-- C1: for every non-empty input list (positive batch size, supported
pooling method), `encode` returns an array with exactly one row per input
string; the rows come from contiguous chunks processed in input order and
concatenated, so flattening the chunk partition recovers the input list
itself. -/
theorem flagC1_row_count (cfg : FlagConfig) (co : Collab)
    (sentences : List String) (bs ml : Nat)
    (hne : sentences ≠ []) (hbs : 0 < bs)
    (hpm : cfg.pooling_method = "cls" ∨ cfg.pooling_method = "mean") :
    (∃ out, encode cfg co sentences bs ml = some out ∧
      out.length = sentences.length) ∧
    (chunkList (effectiveBatch cfg bs) sentences).flatten = sentences := by
  have hebs : effectiveBatch cfg bs ≠ 0 := by
    unfold effectiveBatch
    by_cases hg : 0 < cfg.num_gpus
    · rw [if_pos hg]
      exact Nat.mul_ne_zero (by omega) (by omega)
    · rw [if_neg hg]
      omega
  have hflat := chunkList_flatten (effectiveBatch cfg bs) sentences
  have hall : ∀ c ∈ chunkList (effectiveBatch cfg bs) sentences,
      ∃ o, processBatch cfg co ml c = some o ∧ o.length = c.length :=
    fun c _ => processBatch_some cfg co ml c hpm
  rcases optionMapM_lengths (processBatch cfg co ml) _ hall with
    ⟨outs, houts, hlen1, hlen2⟩
  have hchne : chunkList (effectiveBatch cfg bs) sentences ≠ [] := by
    cases sentences with
    | nil => exact absurd rfl hne
    | cons x xs => exact chunkList_ne_nil _ x xs
  refine ⟨⟨outs.flatten, ?_, ?_⟩, hflat⟩
  · unfold encode
    rw [if_neg hebs, houts]
    have hoe : outs.isEmpty = false := by
      cases outs with
      | nil =>
        exfalso
        exact hchne (List.length_eq_zero.mp hlen1.symm)
      | cons _ _ => rfl
    show (if outs.isEmpty = true then none else some outs.flatten)
      = some outs.flatten
    rw [hoe]
    rfl
  · rw [hlen2, hflat]

/-- Witness for C1: three sentences encoded with batch size 2 give three
rows. -/
theorem flagC1_row_count_witness :
    (∃ out, encode cfgW collabW ["a", "b", "c"] 2 512 = some out ∧
      out.length = (["a", "b", "c"] : List String).length) ∧
    (chunkList (effectiveBatch cfgW 2) ["a", "b", "c"]).flatten
      = ["a", "b", "c"] :=
  flagC1_row_count cfgW collabW ["a", "b", "c"] 2 512 (by simp) (by norm_num)
    (Or.inl rfl)

/-- C2: the claim says the empty input list makes `encode`, `encode_queries`
and `encode_corpus` return a zero-row array without error; on the code all
three raise instead (`np.concatenate([])` raises `ValueError`; `corpus[0]`
raises `IndexError`), i.e. all three evaluate to `none` for every
configuration and collaborator. -/
theorem flagC2_empty_raises (cfg : FlagConfig) (co : Collab) (bs ml : Nat) :
    encode cfg co [] bs ml = none ∧
    encode_queries cfg co [] bs ml = none ∧
    encode_corpus cfg co [] bs ml = none := by
  refine ⟨encode_nil cfg co bs ml, ?_, rfl⟩
  unfold encode_queries
  cases h : cfg.query_instruction_for_retrieval <;> simp [h, encode_nil]

/-- C3: the claim says construction succeeds with multiple devices, scaling
the batch size; on the code, line 29 reads the never-assigned attribute
`self.batch_size` and raises `AttributeError` whenever `num_gpus > 1`, so
construction fails even though the model identifier resolves. With at most
one device (and a resolvable identifier) construction succeeds; an
unresolvable identifier fails as the claim says. -/
theorem flagC3_init_crashes :
    initFlagModel true "cls" true none 2 = none ∧
    initFlagModel false "cls" true none 0 = none ∧
    initFlagModel true "cls" true none 1
      = some { pooling_method := "cls"
               normalize_embeddings := true
               query_instruction_for_retrieval := none
               num_gpus := 1 } :=
  ⟨rfl, rfl, rfl⟩

/-- C5: `encode_queries` prepends the configured instruction to every query
and returns exactly `encode` on the prepended strings; with no instruction it
equals `encode` on the unmodified queries. -/
theorem flagC5_queries (cfg : FlagConfig) (co : Collab) (qs : List String)
    (bs ml : Nat) (ins : String) :
    (cfg.query_instruction_for_retrieval = some ins →
      encode_queries cfg co qs bs ml
        = encode cfg co (qs.map (fun q => ins ++ q)) bs ml) ∧
    (cfg.query_instruction_for_retrieval = none →
      encode_queries cfg co qs bs ml = encode cfg co qs bs ml) := by
  constructor <;> intro h <;> simp [encode_queries, h]

/-- Witness for C5 at the spec's own example: instruction `"q: "`,
query `"foo"`. -/
theorem flagC5_queries_witness :
    encode_queries cfgQ collabW ["foo"] 256 512
      = encode cfgQ collabW ["q: foo"] 256 512 := by
  have h := (flagC5_queries cfgQ collabW ["foo"] 256 512 "q: ").1 rfl
  exact h

/-- C6: on a structured corpus, `encode_corpus` equals `encode` on the
records' `title`-space-`text` strings, trimmed (`title` defaulting to empty);
on a plain-string corpus it equals `encode` on the unchanged strings. -/
theorem flagC6_corpus (cfg : FlagConfig) (co : Collab) (bs ml : Nat)
    (docs : List (Option String × String)) (ss : List String) :
    encode_corpus cfg co (docs.map (fun d => CorpusItem.dict d.1 (some d.2))) bs ml
      = encode cfg co (docs.map (fun d => pyStrip ((d.1.getD "") ++ " " ++ d.2))) bs ml ∧
    encode_corpus cfg co (ss.map CorpusItem.str) bs ml
      = encode cfg co ss bs ml := by
  constructor
  · cases docs with
    | nil => simp [encode_corpus, corpusInputs, encode_nil]
    | cons d drest =>
      simp only [encode_corpus, corpusInputs_dicts, itemText_roundtrip]
  · cases ss with
    | nil => simp [encode_corpus, corpusInputs, encode_nil]
    | cons s srest =>
      have hci : corpusInputs ((s :: srest).map CorpusItem.str)
          = some ((s :: srest).map CorpusItem.str) := by
        rw [List.map_cons]
        rfl
      simp only [encode_corpus, hci, itemText_roundtrip]

/-- C7: a structured corpus (first element a record) containing a record
without the `text` key makes `encode_corpus` fail (`doc['text']` raises
`KeyError`), returning no result. -/
theorem flagC7_missing_text (cfg : FlagConfig) (co : Collab) (bs ml : Nat)
    (corpus : List CorpusItem) (t : Option String)
    (hhead : ∃ u v, corpus.head? = some (CorpusItem.dict u v))
    (hmem : CorpusItem.dict t none ∈ corpus) :
    encode_corpus cfg co corpus bs ml = none := by
  rcases hhead with ⟨u, v, hh⟩
  cases corpus with
  | nil => cases hh
  | cons c rest =>
    simp only [List.head?, Option.some.injEq] at hh
    subst hh
    have hnone : (CorpusItem.dict u v :: rest).mapM formatDoc = none :=
      optionMapM_none_of_mem formatDoc _ ⟨CorpusItem.dict t none, hmem, rfl⟩
    have hci : corpusInputs (CorpusItem.dict u v :: rest) = none := by
      simp only [corpusInputs]
      rw [hnone]
      rfl
    simp only [encode_corpus, hci]

/-- Witness for C7: a one-record corpus whose record lacks `text`. -/
theorem flagC7_missing_text_witness :
    encode_corpus cfgW collabW [CorpusItem.dict (some "T") none] 256 512 = none :=
  flagC7_missing_text cfgW collabW 256 512 _ (some "T")
    ⟨some "T", none, rfl⟩ (List.mem_singleton.mpr rfl)

/-- C8: the claim says an unsupported pooling method fails explicitly; on the
code, `pooling` falls off the `if`/`elif` chain and silently returns Python
`None` (modelled `none`) for every method other than `'cls'` and `'mean'` —
no configuration error is raised. -/
theorem flagC8_pooling_none (method : String) (dim : Nat)
    (hidden : List (List (List ℝ))) (mask : List (List Nat))
    (hc : method ≠ "cls") (hm : method ≠ "mean") :
    pooling method dim hidden mask = none := by
  simp [pooling, hc, hm]

/-- Witness for C8 at the unsupported method `"max"`. -/
theorem flagC8_pooling_none_witness :
    pooling "max" 1 [[[1]]] [[1]] = none :=
  flagC8_pooling_none "max" 1 [[[1]]] [[1]] (by decide) (by decide)

/-- C4: masked mean pooling. For an item whose only unmasked token is the
first one, the pooled vector equals that token's hidden state exactly
(padding contributes nothing); and for an item with zero unmasked tokens the
divisor `d = attention_mask.sum(dim=1)` computed by line 93 is zero, so line
94 divides by zero. -/
theorem flagC4_mean_pooling (dim : Nat) (h0 : List ℝ) (rest : List (List ℝ))
    (m : List Nat) (hd : h0.length = dim) (hr : ∀ v ∈ rest, v.length = dim) :
    meanPoolItem dim (h0 :: rest) (1 :: List.replicate rest.length 0) = h0 ∧
    ((∀ x ∈ m, x = 0) → maskSum m = 0) := by
  constructor
  · have hzip : List.zipWith maskScale (h0 :: rest) (1 :: List.replicate rest.length 0)
        = h0 :: List.zipWith maskScale rest (List.replicate rest.length 0) := by
      rw [List.zipWith_cons_cons, maskScale_one]
    have hzeros : ∀ w ∈ List.zipWith maskScale rest (List.replicate rest.length 0),
        w = List.replicate dim 0 := by
      intro w hw
      rcases zipWith_maskScale_zeros rest.length rest w hw with ⟨v, hv, rfl⟩
      rw [maskScale_zero, hr v hv]
    have hsum : vecSum dim (List.zipWith maskScale (h0 :: rest)
        (1 :: List.replicate rest.length 0)) = h0 := by
      rw [hzip]
      show List.foldl vecAdd (List.replicate dim 0)
        (h0 :: List.zipWith maskScale rest (List.replicate rest.length 0)) = h0
      rw [List.foldl_cons]
      have h1 : vecAdd (List.replicate dim 0) h0 = h0 := by
        rw [← hd]; exact vecAdd_replicate_zero_left h0
      rw [h1]
      exact foldl_vecAdd_zeros dim _ hzeros h0 hd
    have hden : maskSum (1 :: List.replicate rest.length 0) = 1 := by
      unfold maskSum
      rw [List.sum_cons, List.sum_replicate, smul_zero]
      norm_num
    unfold meanPoolItem
    rw [hsum, hden]
    simp
  · intro hz
    unfold maskSum
    rw [List.sum_eq_zero hz]
    norm_num

/-- Witness for C4 at the spec's crafted input: two tokens, the second one
padding. -/
theorem flagC4_mean_pooling_witness :
    meanPoolItem 2 [[5, 7], [9, 11]] [1, 0] = [5, 7] ∧ maskSum [0, 0] = 0 := by
  have h := flagC4_mean_pooling 2 [5, 7] [[9, 11]] [0, 0] rfl (by simp)
  exact ⟨h.1, h.2 (by decide)⟩

/-- As `cfgW` but with normalization enabled. -/
def cfgN : FlagConfig :=
  { pooling_method := "cls"
    normalize_embeddings := true
    query_instruction_for_retrieval := none
    num_gpus := 0 }

/-- C9: with normalization enabled, every row of a successful `encode` result
has Euclidean norm 1, except the degenerate zero pooled vector, which stays
the zero vector. -/
theorem flagC9_unit_norm (cfg : FlagConfig) (co : Collab)
    (sentences : List String) (bs ml : Nat) (out : List (List ℝ))
    (hn : cfg.normalize_embeddings = true)
    (he : encode cfg co sentences bs ml = some out) :
    ∀ row ∈ out, (∀ x ∈ row, x = 0) ∨ euclidNorm row = 1 := by
  unfold encode at he
  by_cases h0 : effectiveBatch cfg bs = 0
  · rw [if_pos h0] at he
    cases he
  · rw [if_neg h0] at he
    cases hm : (chunkList (effectiveBatch cfg bs) sentences).mapM
        (processBatch cfg co ml) with
    | none =>
      rw [hm] at he
      change (none : Option (List (List ℝ))) = some out at he
      cases he
    | some outs =>
      rw [hm] at he
      change (if outs.isEmpty = true then none else some outs.flatten)
        = some out at he
      by_cases hemp : outs.isEmpty = true
      · rw [if_pos hemp] at he
        cases he
      · rw [if_neg hemp] at he
        injection he with hout
        subst hout
        intro row hrow
        rcases List.mem_flatten.mp hrow with ⟨o, ho, hro⟩
        rcases optionMapM_mem (processBatch cfg co ml) _ outs hm o ho with
          ⟨c, _, hfc⟩
        have hpb : processBatch cfg co ml c
            = Option.map (fun pooled => if cfg.normalize_embeddings = true
                then List.map vecNormalize pooled else pooled)
              (pooling cfg.pooling_method co.dim (co.fwd (co.tok c ml))
                (co.tok c ml).mask) := rfl
        rw [hpb] at hfc
        cases hp : pooling cfg.pooling_method co.dim (co.fwd (co.tok c ml))
            (co.tok c ml).mask with
        | none =>
          rw [hp] at hfc
          cases hfc
        | some pooled =>
          rw [hp, Option.map_some'] at hfc
          injection hfc with h2
          rw [hn, if_pos rfl] at h2
          rw [← h2] at hro
          rcases List.mem_map.mp hro with ⟨v, _, hv⟩
          rw [← hv]
          exact vecNormalize_unit v

/-- Witness for C9: the one-sentence encode with normalization on yields the
normalized constant hidden state, which is zero or of unit norm. -/
theorem flagC9_unit_norm_witness :
    (∀ x ∈ vecNormalize [(2 : ℝ)], x = 0)
      ∨ euclidNorm (vecNormalize [(2 : ℝ)]) = 1 := by
  have hc : chunkList (effectiveBatch cfgN 256) ["a"] = [["a"]] := by
    rw [show effectiveBatch cfgN 256 = 256 from rfl]
    rw [chunkList]
    simp [chunkList]
  have he : encode cfgN collabW ["a"] 256 512
      = some [vecNormalize [(2 : ℝ)]] := by
    unfold encode
    rw [if_neg (by decide : ¬ effectiveBatch cfgN 256 = 0)]
    rw [hc, optionMapM_cons, optionMapM_nil]
    rfl
  exact flagC9_unit_norm cfgN collabW ["a"] 256 512 _ rfl he
    (vecNormalize [(2 : ℝ)]) (List.mem_singleton.mpr rfl)

/-- C10: `encode_corpus` branches on the first element only: with a record
first, a later plain string makes the call fail (a string has no `.get`, so
`AttributeError` is raised); with a plain string first, every later element —
records included — is passed through as `input_texts` unchanged, not combined
into `'title text'` form. -/
theorem flagC10_first_element (cfg : FlagConfig) (co : Collab) (bs ml : Nat)
    (u v : Option String) (rest : List CorpusItem) (s : String)
    (s2 : String) (rest2 : List CorpusItem)
    (hmem : CorpusItem.str s ∈ rest) :
    encode_corpus cfg co (CorpusItem.dict u v :: rest) bs ml = none ∧
    corpusInputs (CorpusItem.str s2 :: rest2)
      = some (CorpusItem.str s2 :: rest2) := by
  constructor
  · have hnone : (CorpusItem.dict u v :: rest).mapM formatDoc = none :=
      optionMapM_none_of_mem formatDoc _
        ⟨CorpusItem.str s, List.mem_cons_of_mem _ hmem, rfl⟩
    have hci : corpusInputs (CorpusItem.dict u v :: rest) = none := by
      simp only [corpusInputs]
      rw [hnone]
      rfl
    simp only [encode_corpus, hci]
  · rfl

/-- Witness for C10: record-then-string corpus fails; string-then-record
corpus is passed through unchanged. -/
theorem flagC10_first_element_witness :
    encode_corpus cfgW collabW
        [CorpusItem.dict none (some "x"), CorpusItem.str "plain"] 256 512 = none ∧
    corpusInputs [CorpusItem.str "a", CorpusItem.dict none (some "y")]
      = some [CorpusItem.str "a", CorpusItem.dict none (some "y")] :=
  flagC10_first_element cfgW collabW 256 512 none (some "x")
    [CorpusItem.str "plain"] "plain" "a" [CorpusItem.dict none (some "y")]
    (List.mem_singleton.mpr rfl)

end FlagEmbedding
